import Mathlib

/-!
Shallow embedding of the `barf` crate: the `Barfer` buffer capability, its
fixed-capacity `StackBuffer<T, N>` implementation (src/stack_buffer.rs), the
growable `Vec<T>` store (src/lib.rs) and the encoding extension layer
(src/ext/barfer_ext.rs, src/ext/barf_ext.rs).

A `MaybeUninit<T>` cell is embedded as `Option T`: `none` is an uninitialized
cell, `some v` is a cell holding `v`.  A Rust method `fn f(&mut self, ...) ->
Result<(), E>` becomes a Lean function returning the pair
`Except E Unit × State`: the first component is the returned `Result`, the
second the post-call state (also on failure, where Rust keeps the mutated
`self`).
-/

namespace Barf

/-- Error type for `StackBuffer`'s implementation of `Barfer`
(src/stack_buffer.rs, `enum StackBufferError`). -/
inductive StackBufferError where
  | NotEnoughCapacity
deriving DecidableEq

/-- `StackBuffer<T, N>`: a buffer of `N` maybe-uninitialized cells plus the
count `len` of initialized slots (src/stack_buffer.rs lines 25-28).  The
`buffer` field embeds `[MaybeUninit<T>; N]` as a list of `Option T`; the
fixed capacity `N` is the type-level parameter, and `buffer.length = N` is
the representation invariant carried by `StackBuffer.Inv`. -/
structure StackBuffer (T : Type) (N : Nat) where
  buffer : List (Option T)
  len : Nat
deriving DecidableEq

/-- `StackBuffer::new()`: all cells uninitialized, `len = 0`. -/
def StackBuffer.new (T : Type) (N : Nat) : StackBuffer T N :=
  ⟨List.replicate N none, 0⟩

/-- Representation invariant of the embedding: the cell array really has `N`
cells and `len` does not exceed the capacity. -/
def StackBuffer.Inv {T : Type} {N : Nat} (s : StackBuffer T N) : Prop :=
  s.buffer.length = N ∧ s.len ≤ N

instance {T : Type} {N : Nat} [DecidableEq T] (s : StackBuffer T N) :
    Decidable s.Inv := by
  unfold StackBuffer.Inv; infer_instance

/-- `StackBuffer::get()`: the first `len` cells, i.e. the initialized portion
viewed as a slice (src/stack_buffer.rs lines 192-194).  The `Option` layer is
kept so that exposing an uninitialized cell is visible as a `none`. -/
def StackBuffer.get {T : Type} {N : Nat} (s : StackBuffer T N) : List (Option T) :=
  s.buffer.take s.len

/-- `StackBuffer::len()`. -/
def StackBuffer.length {T : Type} {N : Nat} (s : StackBuffer T N) : Nat := s.len

/-- `StackBuffer::is_empty()`. -/
def StackBuffer.isEmpty {T : Type} {N : Nat} (s : StackBuffer T N) : Bool :=
  s.length == 0

/-- `StackBuffer::push` (src/stack_buffer.rs lines 113-121): if `len >= N`
fail with `NotEnoughCapacity`, otherwise write `value` into slot `len` and
increment `len`. -/
def StackBuffer.push {T : Type} {N : Nat} (s : StackBuffer T N) (value : T) :
    Except StackBufferError Unit × StackBuffer T N :=
  if N ≤ s.len then
    (.error .NotEnoughCapacity, s)
  else
    (.ok (), ⟨s.buffer.set s.len (some value), s.len + 1⟩)

/-- Loop body of `StackBuffer::extend` (src/stack_buffer.rs lines 137-149):
for each value, if `len >= N` restore `len = initial_len` and fail, keeping
any cells already written by this call; otherwise write the value at slot
`len` and increment `len`. -/
def StackBuffer.extendGo {T : Type} {N : Nat} (initial_len : Nat) :
    StackBuffer T N → List T → Except StackBufferError Unit × StackBuffer T N
  | s, [] => (.ok (), s)
  | s, value :: values =>
    if N ≤ s.len then
      (.error .NotEnoughCapacity, ⟨s.buffer, initial_len⟩)
    else
      StackBuffer.extendGo initial_len
        ⟨s.buffer.set s.len (some value), s.len + 1⟩ values

/-- `StackBuffer::extend`: records `initial_len = len`, then runs the loop.
The input iterator is embedded as the list of items it yields. -/
def StackBuffer.extend {T : Type} {N : Nat} (s : StackBuffer T N) (values : List T) :
    Except StackBufferError Unit × StackBuffer T N :=
  StackBuffer.extendGo s.len s values

/-- The write loop shared by `StackBuffer::extend_from_slice`'s success path:
write each value at slot `len`, incrementing `len` (src/stack_buffer.rs
lines 174-177). -/
def StackBuffer.writeAll {T : Type} {N : Nat} :
    StackBuffer T N → List T → StackBuffer T N
  | s, [] => s
  | s, value :: values =>
    StackBuffer.writeAll ⟨s.buffer.set s.len (some value), s.len + 1⟩ values

/-- `StackBuffer::extend_from_slice` (src/stack_buffer.rs lines 165-179):
check `len + values.len() > N` up front; on failure return
`NotEnoughCapacity` without touching the buffer, on success clone every
element into consecutive slots. -/
def StackBuffer.extend_from_slice {T : Type} {N : Nat} (s : StackBuffer T N)
    (values : List T) : Except StackBufferError Unit × StackBuffer T N :=
  if N < s.len + values.length then
    (.error .NotEnoughCapacity, s)
  else
    (.ok (), s.writeAll values)

/-- `impl Barfer for StackBuffer`: `single` delegates to `push`
(src/stack_buffer.rs lines 207-210). -/
def StackBuffer.single {T : Type} {N : Nat} (s : StackBuffer T N) (value : T) :
    Except StackBufferError Unit × StackBuffer T N :=
  s.push value

/-- `impl Barfer for StackBuffer`: `many` overrides the default with `extend`
(src/stack_buffer.rs lines 212-215). -/
def StackBuffer.many {T : Type} {N : Nat} (s : StackBuffer T N) (values : List T) :
    Except StackBufferError Unit × StackBuffer T N :=
  s.extend values

/-- `impl Barfer for StackBuffer`: `slice` delegates to `extend_from_slice`
(src/stack_buffer.rs lines 217-223). -/
def StackBuffer.slice {T : Type} {N : Nat} (s : StackBuffer T N) (values : List T) :
    Except StackBufferError Unit × StackBuffer T N :=
  s.extend_from_slice values

/-- The `Barfer` trait's default `many` (src/lib.rs lines 60-66): call
`single` on each element in order, propagating the first error with `?` and
keeping the state reached so far.  It is parametric in the store exactly as
the trait default is parametric in `Self`. -/
def defaultMany {σ ε T : Type} (single : σ → T → Except ε Unit × σ) :
    σ → List T → Except ε Unit × σ
  | s, [] => (.ok (), s)
  | s, value :: values =>
    match single s value with
    | (Except.ok _, s1) => defaultMany single s1 values
    | (Except.error e, s1) => (.error e, s1)

/-- `impl Barfer<T> for Vec<T>`: `single` is `Vec::push` (src/lib.rs
lines 89-93); it cannot fail, so the error type is `Empty`
(`core::convert::Infallible`). -/
def Vec.single {T : Type} (s : List T) (value : T) : Except Empty Unit × List T :=
  (.ok (), s ++ [value])

/-- `impl Barfer<T> for Vec<T>`: `many` is `Vec::extend` (src/lib.rs
lines 95-99). -/
def Vec.many {T : Type} (s : List T) (values : List T) : Except Empty Unit × List T :=
  (.ok (), s ++ values)

/-- `impl Barfer<T> for Vec<T>`: `slice` is `Vec::extend_from_slice`
(src/lib.rs lines 101-108). -/
def Vec.slice {T : Type} (s : List T) (values : List T) : Except Empty Unit × List T :=
  (.ok (), s ++ values)

/-! ## Fixed-width numeric encoding (src/ext/barfer_ext.rs, `numbers!` macro)

An integer value of byte width `w` is presented by its bit pattern, a `Nat`
below `2 ^ (8 * w)`; a signed value is first mapped to its two's-complement
bit pattern by `intToBits`, a float by its IEEE-754 bit pattern.  `to_le_bytes`
on such a pattern yields the base-256 little-endian digits. -/

/-- `to_le_bytes` of a `w`-byte bit pattern: base-256 digits, least
significant first. -/
def toLeBytes : Nat → Nat → List Nat
  | 0, _ => []
  | w + 1, n => n % 256 :: toLeBytes w (n / 256)

/-- `to_be_bytes`: the little-endian digits reversed. -/
def toBeBytes (w n : Nat) : List Nat := (toLeBytes w n).reverse

/-- `from_le_bytes`: recombine base-256 little-endian digits. -/
def fromLeBytes : List Nat → Nat
  | [] => 0
  | b :: bs => b + 256 * fromLeBytes bs

/-- `from_be_bytes`. -/
def fromBeBytes (bs : List Nat) : Nat := fromLeBytes bs.reverse

/-- The three byte-order variants of the `numbers!` macro: little, big and
platform-native endianness.  The build target is modelled as little-endian,
so `ne` coincides with `le` (as `to_ne_bytes` does on such targets). -/
inductive Endian where
  | le
  | be
  | ne
deriving DecidableEq

/-- `to_xe_bytes` for each byte-order variant. -/
def Endian.encBytes : Endian → Nat → Nat → List Nat
  | .le, w, n => toLeBytes w n
  | .be, w, n => toBeBytes w n
  | .ne, w, n => toLeBytes w n

/-- `from_xe_bytes` for each byte-order variant. -/
def Endian.decBytes : Endian → List Nat → Nat
  | .le, bs => fromLeBytes bs
  | .be, bs => fromBeBytes bs
  | .ne, bs => fromLeBytes bs

/-- Two's-complement bit pattern of a signed value of byte width `w`. -/
def intToBits (w : Nat) (v : Int) : Nat := (v % (2 ^ (8 * w))).toNat

/-- Signed reading of a `w`-byte bit pattern (what `iN::from_xe_bytes`
computes from the recombined pattern). -/
def bitsToInt (w : Nat) (bits : Nat) : Int :=
  if bits < 2 ^ (8 * w - 1) then (bits : Int) else (bits : Int) - 2 ^ (8 * w)

/-- A `numbers!`-generated method on a `StackBuffer<u8, N>` store: the macro
body is `self.many(num.to_xe_bytes())` (src/ext/barfer_ext.rs line 17),
where for `StackBuffer` the trait method `many` is `extend`. -/
def StackBuffer.numEncode {N : Nat} (e : Endian) (w : Nat) (s : StackBuffer Nat N)
    (bits : Nat) : Except StackBufferError Unit × StackBuffer Nat N :=
  s.many (e.encBytes w bits)

/-- A `numbers!`-generated method on a `Vec<u8>` store: `self.many(num.to_xe_bytes())`,
where for `Vec` the trait method `many` is `extend`. -/
def Vec.numEncode (e : Endian) (w : Nat) (s : List Nat) (bits : Nat) :
    Except Empty Unit × List Nat :=
  Vec.many s (e.encBytes w bits)

/-- Modelled from the spec: the external `nano_leb128` unsigned-LEB128 codec
called by `ByteBarferExt::uleb128` (src/ext/barfer_ext.rs lines 70-80) is not
part of this repository; the spec fixes it as standard LEB128 — 7 payload
bits per byte, least-significant group first, high bit set on every byte but
the last.  The fuel argument mirrors the 10-byte scratch buffer of the
source, which suffices for every `u64`. -/
def uleb128Go : Nat → Nat → List Nat
  | 0, n => [n % 128]
  | fuel + 1, n => if n < 128 then [n] else (n % 128 + 128) :: uleb128Go fuel (n / 128)

/-- Unsigned LEB128 byte group of a value (fuel 10, enough for 64 bits). -/
def uleb128Bytes (n : Nat) : List Nat := uleb128Go 10 n

/-- `ByteBarferExt::uleb128` on a `Vec<u8>` store: encode, then append the
encoded group via `slice` (src/ext/barfer_ext.rs lines 70-80). -/
def Vec.uleb128 (s : List Nat) (n : Nat) : Except Empty Unit × List Nat :=
  Vec.slice s (uleb128Bytes n)

/-! ## UTF-8 validated text append (src/ext/barf_ext.rs, `StringBarfExt::bytes`)

The text store (`String`) is embedded as the list of its Unicode scalar
values (each a `Nat`); a byte sequence as a list of `Nat` below 256. -/

/-- UTF-8 continuation byte: `0x80 ..= 0xBF`. -/
def isCont (b : Nat) : Bool := 0x80 ≤ b && b ≤ 0xBF

/-- Modelled from the spec: the external validator/decoder
`core::str::from_utf8` called by `StringBarfExt::bytes` (src/ext/barf_ext.rs
lines 45-48) is not part of this repository; the spec requires the bytes to
"form well-formed UTF-8".  The next four functions implement the standard
table of well-formed byte sequences (RFC 3629).  `step2` consumes the
continuation byte of a 2-byte sequence `C2..DF 80..BF`, returning the
decoded scalar value and the remaining input. -/
def step2 (b0 : Nat) : List Nat → Option (Nat × List Nat)
  | b1 :: rest1 =>
    if isCont b1 then some ((b0 - 0xC0) * 64 + (b1 - 0x80), rest1) else none
  | [] => none

/-- Continuation bytes of a 3-byte sequence: `E0 A0..BF`, `E1..EC 80..BF`,
`ED 80..9F` (excluding surrogates), `EE..EF 80..BF`, each followed by one
more continuation byte. -/
def step3 (b0 : Nat) : List Nat → Option (Nat × List Nat)
  | b1 :: b2 :: rest2 =>
    if (if b0 = 0xE0 then 0xA0 ≤ b1 && b1 ≤ 0xBF
        else if b0 = 0xED then 0x80 ≤ b1 && b1 ≤ 0x9F
        else isCont b1) && isCont b2 then
      some ((b0 - 0xE0) * 4096 + (b1 - 0x80) * 64 + (b2 - 0x80), rest2)
    else none
  | _ => none

/-- Continuation bytes of a 4-byte sequence: `F0 90..BF`, `F1..F3 80..BF`,
`F4 80..8F`, each followed by two more continuation bytes. -/
def step4 (b0 : Nat) : List Nat → Option (Nat × List Nat)
  | b1 :: b2 :: b3 :: rest3 =>
    if (if b0 = 0xF0 then 0x90 ≤ b1 && b1 ≤ 0xBF
        else if b0 = 0xF4 then 0x80 ≤ b1 && b1 ≤ 0x8F
        else isCont b1) && isCont b2 && isCont b3 then
      some ((b0 - 0xF0) * 262144 + (b1 - 0x80) * 4096 + (b2 - 0x80) * 64
        + (b3 - 0x80), rest3)
    else none
  | _ => none

/-- Decode one UTF-8 encoded scalar value whose first byte is `b0` and
whose remaining input is `rest`. -/
def utf8Step (b0 : Nat) (rest : List Nat) : Option (Nat × List Nat) :=
  if b0 < 0x80 then some (b0, rest)
  else if 0xC2 ≤ b0 && b0 ≤ 0xDF then step2 b0 rest
  else if 0xE0 ≤ b0 && b0 ≤ 0xEF then step3 b0 rest
  else if 0xF0 ≤ b0 && b0 ≤ 0xF4 then step4 b0 rest
  else none

/-- Fuelled decoding loop: each step consumes at least one byte, so fuel
equal to the input length always suffices. -/
def utf8DecodeGo : Nat → List Nat → Option (List Nat)
  | _, [] => some []
  | 0, _ :: _ => none
  | fuel + 1, b0 :: rest =>
    match utf8Step b0 rest with
    | some (c, rest2) => (utf8DecodeGo fuel rest2).map (fun cs => c :: cs)
    | none => none

/-- The modelled `core::str::from_utf8`: validate the whole byte sequence,
returning the decoded scalar values on success. -/
def utf8Decode (b : List Nat) : Option (List Nat) := utf8DecodeGo b.length b

/-- The standard UTF-8 encoding of a Unicode scalar value. -/
def scalarEncode (c : Nat) : List Nat :=
  if c < 0x80 then [c]
  else if c < 0x800 then [0xC0 + c / 64, 0x80 + c % 64]
  else if c < 0x10000 then [0xE0 + c / 4096, 0x80 + c / 64 % 64, 0x80 + c % 64]
  else [0xF0 + c / 262144, 0x80 + c / 4096 % 64, 0x80 + c / 64 % 64, 0x80 + c % 64]

/-- Unicode scalar value: a code point that is not a surrogate. -/
def IsScalar (c : Nat) : Prop := c < 0xD800 ∨ (0xE000 ≤ c ∧ c < 0x110000)

/-- A byte sequence is well-formed UTF-8 when it is a concatenation of
encodings of Unicode scalar values.  This is the specification-side notion
the executable `utf8Decode` is proved equivalent to. -/
inductive WfUtf8 : List Nat → Prop where
  | nil : WfUtf8 []
  | cons (c : Nat) (bs : List Nat) : IsScalar c → WfUtf8 bs →
      WfUtf8 (scalarEncode c ++ bs)

/-- The UTF-8 validation error of `StringBarfExt::bytes`
(`core::str::Utf8Error`), distinct from any `Barfer` error type. -/
inductive Utf8Error where
  | invalid
deriving DecidableEq

/-- `StringBarfExt::bytes` on a `String` store (src/ext/barf_ext.rs
lines 45-48): validate/decode the bytes as UTF-8; on success `push_str` the
decoded text, on failure return the validation error having touched
nothing. -/
def stringBytes (s : List Nat) (b : List Nat) : Except Utf8Error Unit × List Nat :=
  match utf8Decode b with
  | some cs => (.ok (), s ++ cs)
  | none => (.error .invalid, s)

/-- The elements a call actually appended: all of them when the call
succeeded, none when it failed (a failed `StackBuffer` append is observably
a no-op). -/
def appendedOf {T : Type} (r : Except StackBufferError Unit) (l : List T) : List T :=
  match r with
  | .ok _ => l
  | .error _ => []

/-- States of `StackBuffer<T, N>` reachable from `new()` by any sequence of
`push` / `extend` / `extend_from_slice` calls, successful or failed, paired
with the list of elements appended so far. -/
inductive Reach (T : Type) (N : Nat) : StackBuffer T N → List T → Prop where
  | init : Reach T N (StackBuffer.new T N) []
  | push (s : StackBuffer T N) (vs : List T) (v : T) : Reach T N s vs →
      Reach T N (s.push v).2 (vs ++ appendedOf (s.push v).1 [v])
  | extend (s : StackBuffer T N) (vs ws : List T) : Reach T N s vs →
      Reach T N (s.extend ws).2 (vs ++ appendedOf (s.extend ws).1 ws)
  | extend_from_slice (s : StackBuffer T N) (vs ws : List T) : Reach T N s vs →
      Reach T N (s.extend_from_slice ws).2
        (vs ++ appendedOf (s.extend_from_slice ws).1 ws)

/-- A test double for the default `many`: a store of at most two elements
whose `single` fails (leaving the store unchanged) once the store holds two
elements, and otherwise appends. -/
def cappedPush (s : List Nat) (v : Nat) : Except Unit Unit × List Nat :=
  if 2 ≤ s.length then (.error (), s) else (.ok (), s ++ [v])

/-! ## Lemmas about the write loops of `StackBuffer` -/

theorem take_eq_of_agree {α : Type _} {l₁ l₂ : List α} (n : Nat)
    (hagree : ∀ j, j < n → l₁[j]? = l₂[j]?) : l₁.take n = l₂.take n := by
  apply List.ext_getElem?
  intro m
  by_cases hm : m < n
  · rw [List.getElem?_take_of_lt hm, List.getElem?_take_of_lt hm, hagree m hm]
  · rw [List.getElem?_eq_none, List.getElem?_eq_none] <;>
      simp [List.length_take] <;> omega

theorem take_set_succ {α : Type _} (l : List α) (n : Nat) (x : α)
    (h : n < l.length) : (l.set n x).take (n + 1) = l.take n ++ [x] := by
  induction l generalizing n with
  | nil => simp at h
  | cons a t ih =>
    cases n with
    | zero => simp
    | succ n =>
      simp only [List.set_cons_succ, List.take_succ_cons, List.cons_append]
      rw [ih]
      simpa using h

theorem StackBuffer.writeAll_buffer_length {T : Type} {N : Nat}
    (s : StackBuffer T N) (vs : List T) :
    (s.writeAll vs).buffer.length = s.buffer.length := by
  induction vs generalizing s with
  | nil => rfl
  | cons v vs ih => simp [StackBuffer.writeAll, ih]

theorem StackBuffer.writeAll_len {T : Type} {N : Nat}
    (s : StackBuffer T N) (vs : List T) :
    (s.writeAll vs).len = s.len + vs.length := by
  induction vs generalizing s with
  | nil => rfl
  | cons v vs ih => simp [StackBuffer.writeAll, ih]; omega

theorem StackBuffer.writeAll_getElem_lt {T : Type} {N : Nat}
    (s : StackBuffer T N) (vs : List T) (j : Nat) (hj : j < s.len) :
    (s.writeAll vs).buffer[j]? = s.buffer[j]? := by
  induction vs generalizing s with
  | nil => rfl
  | cons v vs ih =>
    rw [StackBuffer.writeAll, ih _ (by simpa using Nat.lt_succ_of_lt hj)]
    exact List.getElem?_set_ne (by omega)

theorem StackBuffer.writeAll_getElem_new {T : Type} {N : Nat}
    (s : StackBuffer T N) (vs : List T) (i : Nat) (hi : i < vs.length)
    (h : s.len + vs.length ≤ s.buffer.length) :
    (s.writeAll vs).buffer[s.len + i]? = (vs[i]?).map some := by
  induction vs generalizing s i with
  | nil => simp at hi
  | cons v vs ih =>
    cases i with
    | zero =>
      rw [StackBuffer.writeAll]
      rw [StackBuffer.writeAll_getElem_lt _ _ _ (by simp)]
      simp only [List.getElem?_cons_zero, Option.map_some]
      rw [Nat.add_zero]
      exact List.getElem?_set_eq_of_lt _ (by simp at h; omega)
    | succ i =>
      rw [StackBuffer.writeAll, show s.len + (i + 1) = (s.len + 1) + i by omega]
      have := ih ⟨s.buffer.set s.len (some v), s.len + 1⟩ i
        (by simpa using Nat.lt_of_succ_lt_succ hi) (by simp at h ⊢; omega)
      simpa using this

theorem StackBuffer.get_writeAll {T : Type} {N : Nat}
    (s : StackBuffer T N) (vs : List T)
    (h : s.len + vs.length ≤ s.buffer.length) :
    (s.writeAll vs).get = s.get ++ vs.map some := by
  induction vs generalizing s with
  | nil => simp [StackBuffer.writeAll, StackBuffer.get]
  | cons v vs ih =>
    rw [StackBuffer.writeAll, ih _ (by simp at h ⊢; omega)]
    have : (⟨s.buffer.set s.len (some v), s.len + 1⟩ : StackBuffer T N).get
        = s.get ++ [some v] := by
      simp only [StackBuffer.get]
      exact take_set_succ _ _ _ (by simp at h; omega)
    rw [this, List.map_cons, List.append_assoc, List.singleton_append]

theorem StackBuffer.extendGo_ok {T : Type} {N : Nat} (il : Nat)
    (s : StackBuffer T N) (vs : List T) (h : s.len + vs.length ≤ N) :
    StackBuffer.extendGo il s vs = (.ok (), s.writeAll vs) := by
  induction vs generalizing s with
  | nil => rfl
  | cons v vs ih =>
    rw [StackBuffer.extendGo, if_neg (by simp at h; omega), StackBuffer.writeAll]
    exact ih _ (by simp at h ⊢; omega)

theorem StackBuffer.extendGo_err {T : Type} {N : Nat} (il : Nat)
    (s : StackBuffer T N) (vs : List T) (h : N < s.len + vs.length)
    (hlen : s.len ≤ N) :
    ∃ b : List (Option T),
      StackBuffer.extendGo il s vs = (.error .NotEnoughCapacity, ⟨b, il⟩) ∧
      b.length = s.buffer.length ∧ ∀ j, j < s.len → b[j]? = s.buffer[j]? := by
  induction vs generalizing s with
  | nil => simp at h; omega
  | cons v vs ih =>
    by_cases hfull : N ≤ s.len
    · exact ⟨s.buffer, by rw [StackBuffer.extendGo, if_pos hfull], rfl,
        fun j _ => rfl⟩
    · push_neg at hfull
      obtain ⟨b, heq, hblen, hbag⟩ :=
        ih ⟨s.buffer.set s.len (some v), s.len + 1⟩ (by simp at h ⊢; omega)
          (by simpa using hfull)
      refine ⟨b, ?_, by simpa using hblen, fun j hj => ?_⟩
      · rw [StackBuffer.extendGo, if_neg (by omega)]
        exact heq
      · rw [hbag j (by simpa using Nat.lt_succ_of_lt hj)]
        exact List.getElem?_set_ne (by omega)

/-! ## Claim theorems for the fixed-capacity store -/

/-- C1: For every `StackBuffer<T, N>` and every finite input sequence of
length `m`, `extend` succeeds if and only if `len + m <= N`; on success the
`m` elements are written in order into slots `[old len, old len + m)` and
`len` increases by exactly `m`, and on failure the call returns
`NotEnoughCapacity` and the post-call pair `(len, get())` equals the
pre-call pair. -/
theorem StackBuffer.extend_spec {T : Type} {N : Nat} (s : StackBuffer T N)
    (vs : List T) (h : s.Inv) :
    ((s.extend vs).1 = .ok () ↔ s.len + vs.length ≤ N) ∧
    (s.len + vs.length ≤ N →
      (s.extend vs).2.len = s.len + vs.length ∧
      ∀ i, i < vs.length → (s.extend vs).2.buffer[s.len + i]? = (vs[i]?).map some) ∧
    (N < s.len + vs.length →
      (s.extend vs).1 = .error .NotEnoughCapacity ∧
      (s.extend vs).2.len = s.len ∧ (s.extend vs).2.get = s.get) := by
  obtain ⟨hb, hl⟩ := h
  by_cases hc : s.len + vs.length ≤ N
  · rw [StackBuffer.extend, StackBuffer.extendGo_ok s.len s vs hc]
    refine ⟨by simpa using hc, fun _ => ⟨?_, fun i hi => ?_⟩, fun hlt => by omega⟩
    · exact StackBuffer.writeAll_len s vs
    · exact StackBuffer.writeAll_getElem_new s vs i hi (by omega)
  · push_neg at hc
    obtain ⟨b, heq, hblen, hbag⟩ := StackBuffer.extendGo_err s.len s vs hc hl
    rw [StackBuffer.extend, heq]
    refine ⟨by simp; omega, fun hle => by omega, fun _ => ⟨rfl, rfl, ?_⟩⟩
    exact take_eq_of_agree s.len hbag

/-- Witness for C1: on a fresh 2-slot buffer, extending by two elements
succeeds, and on a 2-slot buffer holding one element, extending by two
fails restoring `(len, get)`. -/
theorem StackBuffer.extend_spec_witness :
    ((StackBuffer.new Nat 2).extend [7, 8]).1 = .ok () ∧
    ((⟨[some 5, none], 1⟩ : StackBuffer Nat 2).extend [7, 8]).2.get
      = (⟨[some 5, none], 1⟩ : StackBuffer Nat 2).get :=
  ⟨((StackBuffer.extend_spec (StackBuffer.new Nat 2) [7, 8] (by decide)).1).mpr
      (by decide),
   (((StackBuffer.extend_spec (⟨[some 5, none], 1⟩ : StackBuffer Nat 2) [7, 8]
      (by decide)).2.2) (by decide)).2.2⟩

/-- C2: `extend_from_slice` checks `len + m <= N` before writing anything:
when `len + m > N` it fails with `NotEnoughCapacity` leaving the state
completely unchanged, and when `len + m <= N` it duplicates each source
element in order into consecutive free slots and increments `len` by
exactly `m`. -/
theorem StackBuffer.extend_from_slice_spec {T : Type} {N : Nat}
    (s : StackBuffer T N) (vs : List T) (h : s.Inv) :
    (N < s.len + vs.length →
      s.extend_from_slice vs = (.error .NotEnoughCapacity, s)) ∧
    (s.len + vs.length ≤ N →
      (s.extend_from_slice vs).1 = .ok () ∧
      (s.extend_from_slice vs).2.len = s.len + vs.length ∧
      (∀ i, i < vs.length →
        (s.extend_from_slice vs).2.buffer[s.len + i]? = (vs[i]?).map some) ∧
      (s.extend_from_slice vs).2.get = s.get ++ vs.map some) := by
  obtain ⟨hb, hl⟩ := h
  constructor
  · intro hlt
    rw [StackBuffer.extend_from_slice, if_pos hlt]
  · intro hle
    rw [StackBuffer.extend_from_slice, if_neg (by omega)]
    exact ⟨rfl, StackBuffer.writeAll_len s vs,
      fun i hi => StackBuffer.writeAll_getElem_new s vs i hi (by omega),
      StackBuffer.get_writeAll s vs (by omega)⟩

/-- Witness for C2: a 2-slot buffer holding one element rejects a 2-element
slice leaving the state untouched, and accepts a 1-element slice. -/
theorem StackBuffer.extend_from_slice_spec_witness :
    (⟨[some 5, none], 1⟩ : StackBuffer Nat 2).extend_from_slice [7, 8]
      = (.error .NotEnoughCapacity, ⟨[some 5, none], 1⟩) ∧
    ((⟨[some 5, none], 1⟩ : StackBuffer Nat 2).extend_from_slice [7]).2.get
      = [some 5, some 7] :=
  ⟨(StackBuffer.extend_from_slice_spec (⟨[some 5, none], 1⟩ : StackBuffer Nat 2)
      [7, 8] (by decide)).1 (by decide),
   by
    rw [((StackBuffer.extend_from_slice_spec
      (⟨[some 5, none], 1⟩ : StackBuffer Nat 2) [7] (by decide)).2
        (by decide)).2.2.2]
    decide⟩

/-- C3: `push(value)` with `len == N` fails with `NotEnoughCapacity` and
leaves `len` and the readable contents unchanged; with `len < N` it
succeeds, the new `len` is the old `len + 1`, the slot at the old `len`
holds exactly `value`, and `get()` equals the old `get()` extended by
`value`. -/
theorem StackBuffer.push_spec {T : Type} {N : Nat} (s : StackBuffer T N)
    (v : T) (h : s.Inv) :
    (s.len = N → s.push v = (.error .NotEnoughCapacity, s)) ∧
    (s.len < N →
      (s.push v).1 = .ok () ∧
      (s.push v).2.len = s.len + 1 ∧
      (s.push v).2.buffer[s.len]? = some (some v) ∧
      (s.push v).2.get = s.get ++ [some v]) := by
  obtain ⟨hb, hl⟩ := h
  constructor
  · intro hfull
    rw [StackBuffer.push, if_pos (by omega)]
  · intro hlt
    rw [StackBuffer.push, if_neg (by omega)]
    refine ⟨rfl, rfl, List.getElem?_set_eq_of_lt _ (by omega), ?_⟩
    simp only [StackBuffer.get]
    exact take_set_succ _ _ _ (by omega)

/-- Witness for C3: pushing onto a full 1-slot buffer fails leaving the
state unchanged; pushing onto a fresh 1-slot buffer succeeds with the value
readable. -/
theorem StackBuffer.push_spec_witness :
    (⟨[some 4], 1⟩ : StackBuffer Nat 1).push 9
      = (.error .NotEnoughCapacity, ⟨[some 4], 1⟩) ∧
    ((StackBuffer.new Nat 1).push 9).2.get = [some 9] :=
  ⟨(StackBuffer.push_spec (⟨[some 4], 1⟩ : StackBuffer Nat 1) 9 (by decide)).1
      rfl,
   by
    rw [((StackBuffer.push_spec (StackBuffer.new Nat 1) 9 (by decide)).2
      (by decide)).2.2.2]
    decide⟩

/-- C10: for every `StackBuffer<T, N>` state satisfying the representation
invariant, including the full state `len == N`, `extend` (and `many`) with
an empty sequence and `extend_from_slice` (and `slice`) with an empty slice
always succeed and leave the state — hence `len` and the readable
contents — unchanged. -/
theorem StackBuffer.empty_append_spec {T : Type} {N : Nat}
    (s : StackBuffer T N) (h : s.Inv) :
    s.extend [] = (.ok (), s) ∧ s.many [] = (.ok (), s) ∧
    s.extend_from_slice [] = (.ok (), s) ∧ s.slice [] = (.ok (), s) := by
  have hefs : s.extend_from_slice [] = (.ok (), s) := by
    rw [StackBuffer.extend_from_slice, if_neg (by simpa using h.2)]
    rfl
  exact ⟨rfl, rfl, hefs, hefs⟩

/-- C4: every `StackBuffer<T, N>` reachable from `new()` by any sequence of
`push`/`extend`/`extend_from_slice` calls (successful or failed) satisfies
`0 <= len <= N`, with slots `[0, len)` initialized with the appended values
and `get()` returning exactly that prefix of length `len` (all cells
`some`, so no slot in `[len, N)` and no uninitialized cell is ever
exposed). -/
theorem StackBuffer.reach_invariant {T : Type} {N : Nat}
    (s : StackBuffer T N) (vs : List T) (h : Reach T N s vs) :
    s.buffer.length = N ∧ s.len = vs.length ∧ vs.length ≤ N ∧
    s.get = vs.map some := by
  induction h with
  | init =>
    exact ⟨by simp [StackBuffer.new], rfl, Nat.zero_le _,
      by simp [StackBuffer.new, StackBuffer.get]⟩
  | push s vs v hr ih =>
    obtain ⟨hb, hlen, hle, hget⟩ := ih
    by_cases hc : N ≤ s.len
    · simp only [StackBuffer.push, if_pos hc, appendedOf, List.append_nil]
      exact ⟨hb, hlen, hle, hget⟩
    · push_neg at hc
      simp only [StackBuffer.push, if_neg (Nat.not_le.mpr hc), appendedOf]
      refine ⟨by simpa using hb, by simp [hlen], by simp; omega, ?_⟩
      simp only [StackBuffer.get]
      rw [take_set_succ _ _ _ (by omega)]
      rw [show s.buffer.take s.len = s.get from rfl, hget]
      simp
  | extend s vs ws hr ih =>
    obtain ⟨hb, hlen, hle, hget⟩ := ih
    by_cases hc : s.len + ws.length ≤ N
    · rw [StackBuffer.extend, StackBuffer.extendGo_ok s.len s ws hc]
      simp only [appendedOf]
      refine ⟨by rw [StackBuffer.writeAll_buffer_length]; exact hb,
        by rw [StackBuffer.writeAll_len]; simp [hlen],
        by simp; omega, ?_⟩
      rw [StackBuffer.get_writeAll s ws (by omega), hget]
      simp
    · push_neg at hc
      obtain ⟨b, heq, hblen, hbag⟩ :=
        StackBuffer.extendGo_err s.len s ws hc (by omega)
      rw [StackBuffer.extend, heq]
      simp only [appendedOf, List.append_nil]
      refine ⟨hblen.trans hb, hlen, hle, ?_⟩
      show b.take s.len = vs.map some
      rw [take_eq_of_agree s.len hbag]
      exact hget
  | extend_from_slice s vs ws hr ih =>
    obtain ⟨hb, hlen, hle, hget⟩ := ih
    by_cases hc : N < s.len + ws.length
    · simp only [StackBuffer.extend_from_slice, if_pos hc, appendedOf,
        List.append_nil]
      exact ⟨hb, hlen, hle, hget⟩
    · push_neg at hc
      simp only [StackBuffer.extend_from_slice, if_neg (Nat.not_lt.mpr hc),
        appendedOf]
      refine ⟨by rw [StackBuffer.writeAll_buffer_length]; exact hb,
        by rw [StackBuffer.writeAll_len]; simp [hlen],
        by simp; omega, ?_⟩
      rw [StackBuffer.get_writeAll s ws (by omega), hget]
      simp

/-- Witness for C4: the state after one successful push on a fresh buffer
exposes exactly the appended prefix. -/
theorem StackBuffer.reach_invariant_witness :
    (((StackBuffer.new Nat 2).push 7).2).get
      = (([] : List Nat) ++ appendedOf (((StackBuffer.new Nat 2).push 7).1) [7]).map some :=
  (StackBuffer.reach_invariant _ _ (Reach.push _ _ 7 Reach.init)).2.2.2

theorem cappedPush_ok (s : List Nat) (v : Nat) (h : (cappedPush s v).1 = .ok ()) :
    (cappedPush s v).2 = s ++ [v] := by
  unfold cappedPush at h ⊢
  by_cases hc : 2 ≤ s.length
  · rw [if_pos hc] at h
    exact absurd h (by simp)
  · rw [if_neg hc]

theorem cappedPush_err (s : List Nat) (v : Nat) (e : Unit)
    (h : (cappedPush s v).1 = .error e) : (cappedPush s v).2 = s := by
  unfold cappedPush at h ⊢
  by_cases hc : 2 ≤ s.length
  · rw [if_pos hc]
  · rw [if_neg hc] at h
    exact absurd h (by simp)

/-- C5: the `Barfer` trait's default `many` calls `single` once per element
in sequence order and stops at the first `single` failure, returning that
error without rolling back the earlier successful appends; if every
`single` call succeeds it returns success having appended every element.
Stated for any store whose `single` appends exactly one element on success
and is a contents-no-op on failure. -/
theorem defaultMany_spec {σ ε T : Type} (single : σ → T → Except ε Unit × σ)
    (contents : σ → List T)
    (Hok : ∀ s v, (single s v).1 = .ok () →
      contents (single s v).2 = contents s ++ [v])
    (Herr : ∀ s v e, (single s v).1 = .error e →
      contents (single s v).2 = contents s)
    (s : σ) (vs : List T) :
    ((defaultMany single s vs).1 = .ok () →
      contents (defaultMany single s vs).2 = contents s ++ vs) ∧
    (∀ e, (defaultMany single s vs).1 = .error e →
      ∃ pre v post s1, vs = pre ++ v :: post ∧
        defaultMany single s pre = (.ok (), s1) ∧
        contents s1 = contents s ++ pre ∧
        (single s1 v).1 = .error e ∧
        defaultMany single s vs = single s1 v ∧
        contents (defaultMany single s vs).2 = contents s ++ pre) := by
  induction vs generalizing s with
  | nil =>
    refine ⟨fun _ => by simp [defaultMany], fun e he => ?_⟩
    simp [defaultMany] at he
  | cons v vs ih =>
    rcases hsv : single s v with ⟨r, s1⟩
    cases r with
    | ok u =>
      have hcont : contents s1 = contents s ++ [v] := by
        have := Hok s v (by rw [hsv])
        rwa [hsv] at this
      have hstep : defaultMany single s (v :: vs) = defaultMany single s1 vs := by
        simp [defaultMany, hsv]
      obtain ⟨ihok, iherr⟩ := ih s1
      constructor
      · intro hok
        rw [hstep] at hok ⊢
        rw [ihok hok, hcont]
        simp
      · intro e he
        rw [hstep] at he
        obtain ⟨pre, v2, post, s2, hsplit, hpre, hc2, hfail, hlast, hkeep⟩ :=
          iherr e he
        refine ⟨v :: pre, v2, post, s2, by simp [hsplit], ?_, ?_, hfail, ?_, ?_⟩
        · simp [defaultMany, hsv, hpre]
        · rw [hc2, hcont]; simp
        · rw [hstep, hlast]
        · rw [hstep, hkeep, hcont]; simp
    | error e0 =>
      have hstep : defaultMany single s (v :: vs) = (.error e0, s1) := by
        simp [defaultMany, hsv]
      constructor
      · intro hok
        rw [hstep] at hok
        simp at hok
      · intro e he
        rw [hstep] at he
        simp only [Prod.fst] at he
        have he0 : e0 = e := by
          have := he
          injection this
        refine ⟨[], v, vs, s, by simp, rfl, by simp, by rw [hsv, he0], ?_, ?_⟩
        · rw [hstep, hsv, he0]
        · rw [hstep]
          have := Herr s v e0 (by rw [hsv])
          rw [hsv] at this
          simpa using this

/-- Witness for C5: on a store capped at two elements, appending `[5, 6, 7]`
via the default `many` appends `5` and `6`, then returns the error of the
third `single` call without rolling back. -/
theorem defaultMany_spec_witness :
    ∃ pre v post s1, [5, 6, 7] = pre ++ v :: post ∧
      defaultMany cappedPush [] pre = (.ok (), s1) ∧
      s1 = [] ++ pre ∧
      (cappedPush s1 v).1 = .error () ∧
      defaultMany cappedPush [] [5, 6, 7] = cappedPush s1 v ∧
      (defaultMany cappedPush [] [5, 6, 7]).2 = [] ++ pre :=
  (defaultMany_spec cappedPush (fun l => l) cappedPush_ok cappedPush_err
    [] [5, 6, 7]).2 () rfl

theorem toLeBytes_length (w n : Nat) : (toLeBytes w n).length = w := by
  induction w generalizing n with
  | zero => rfl
  | succ w ih => simp [toLeBytes, ih]

theorem encBytes_length (e : Endian) (w n : Nat) :
    (Endian.encBytes e w n).length = w := by
  cases e <;> simp [Endian.encBytes, toBeBytes, toLeBytes_length]

/-- On any valid `StackBuffer` state, `many` (= `extend`) and `slice`
(= `extend_from_slice`) on the same element list return the same result and
observably equal post-states: equal `len` and equal `get()`.  (The raw
cells beyond `len` may differ: a failed `extend` may have written some of
them, but no read operation can reach those cells.) -/
theorem StackBuffer.extend_efs_observEq {T : Type} {N : Nat}
    (s : StackBuffer T N) (vs : List T) (h : s.Inv) :
    (s.extend vs).1 = (s.extend_from_slice vs).1 ∧
    (s.extend vs).2.len = (s.extend_from_slice vs).2.len ∧
    (s.extend vs).2.get = (s.extend_from_slice vs).2.get := by
  by_cases hc : s.len + vs.length ≤ N
  · rw [StackBuffer.extend, StackBuffer.extendGo_ok s.len s vs hc,
      StackBuffer.extend_from_slice, if_neg (by omega)]
    exact ⟨rfl, rfl, rfl⟩
  · push_neg at hc
    obtain ⟨b, heq, hblen, hbag⟩ :=
      StackBuffer.extendGo_err s.len s vs hc h.2
    rw [StackBuffer.extend, heq, StackBuffer.extend_from_slice, if_pos hc]
    exact ⟨rfl, rfl, take_eq_of_agree s.len hbag⟩

/-- C6: for every byte-order variant and byte width of the `numbers!` macro
(8/16/32/64/128-bit signed and unsigned integers presented by their
two's-complement bit pattern, 32/64-bit floats presented by their IEEE-754
bit pattern), every value, and every provided store (growable byte store,
and `StackBuffer<u8, N>` in every valid state), the fixed-width encoder
produces the canonical fixed-length byte representation (`w` bytes) and
appending it via the macro body `self.many(...)` is observably equivalent —
same result, same observable post-state (`len`, `get()`) — to calling
`slice` on those bytes; on the growable store the two calls are literally
equal. -/
theorem numEncode_spec (e : Endian) (w bits : Nat) {N : Nat}
    (s : StackBuffer Nat N) (h : s.Inv) :
    (Endian.encBytes e w bits).length = w ∧
    StackBuffer.numEncode e w s bits = s.many (e.encBytes w bits) ∧
    ((s.many (e.encBytes w bits)).1 = (s.slice (e.encBytes w bits)).1 ∧
     (s.many (e.encBytes w bits)).2.len = (s.slice (e.encBytes w bits)).2.len ∧
     (s.many (e.encBytes w bits)).2.get = (s.slice (e.encBytes w bits)).2.get) ∧
    (∀ l : List Nat, Vec.numEncode e w l bits = Vec.slice l (e.encBytes w bits)) :=
  ⟨encBytes_length e w bits, rfl,
   StackBuffer.extend_efs_observEq s (e.encBytes w bits) h,
   fun _ => rfl⟩

/-- Witness for C6: a 16-bit little-endian encode on a fresh 2-byte stack
buffer behaves like `slice`; check the `get()` component. -/
theorem numEncode_spec_witness :
    ((StackBuffer.new Nat 2).many (Endian.le.encBytes 2 300)).2.get
      = ((StackBuffer.new Nat 2).slice (Endian.le.encBytes 2 300)).2.get :=
  (numEncode_spec .le 2 300 (StackBuffer.new Nat 2) (by decide)).2.2.1.2.2

/-- C8: the unsigned-LEB128 append of the value 314159 on an empty byte
store appends exactly the three bytes `[175, 150, 19]`, in that order. -/
theorem uleb128_314159 :
    Vec.uleb128 [] 314159 = (.ok (), [175, 150, 19]) := rfl

theorem fromLeBytes_toLeBytes (w n : Nat) :
    fromLeBytes (toLeBytes w n) = n % 256 ^ w := by
  induction w generalizing n with
  | zero => simp [toLeBytes, fromLeBytes, Nat.mod_one]
  | succ w ih =>
    rw [toLeBytes, fromLeBytes, ih,
      show (256 : ℕ) ^ (w + 1) = 256 * 256 ^ w by ring, Nat.mod_mul]

theorem decBytes_encBytes (e : Endian) (w n : Nat) :
    Endian.decBytes e (Endian.encBytes e w n) = n % 256 ^ w := by
  cases e <;>
    simp [Endian.decBytes, Endian.encBytes, fromBeBytes, toBeBytes,
      fromLeBytes_toLeBytes]

theorem intToBits_lt (w : Nat) (v : Int) : intToBits w v < 2 ^ (8 * w) := by
  unfold intToBits
  have hpos : (0 : ℤ) < 2 ^ (8 * w) := by positivity
  have hlt : v % 2 ^ (8 * w) < 2 ^ (8 * w) := Int.emod_lt_of_pos v hpos
  have hcast : ((2 ^ (8 * w) : ℕ) : ℤ) = 2 ^ (8 * w) := by push_cast; rfl
  omega

theorem bitsToInt_intToBits (w : Nat) (hw : 0 < w) (v : Int)
    (hlo : -(2 ^ (8 * w - 1)) ≤ v) (hhi : v < 2 ^ (8 * w - 1)) :
    bitsToInt w (intToBits w v) = v := by
  have hM : (2 : ℤ) ^ (8 * w) = 2 * 2 ^ (8 * w - 1) := by
    rw [show 8 * w = (8 * w - 1) + 1 by omega, pow_succ]
    exact mul_comm _ _
  have hMn : (2 : ℕ) ^ (8 * w) = 2 * 2 ^ (8 * w - 1) := by
    rw [show 8 * w = (8 * w - 1) + 1 by omega, pow_succ]
    exact mul_comm _ _
  have hcast1 : ((2 ^ (8 * w - 1) : ℕ) : ℤ) = 2 ^ (8 * w - 1) := by
    push_cast; rfl
  have hcast2 : ((2 ^ (8 * w) : ℕ) : ℤ) = 2 ^ (8 * w) := by push_cast; rfl
  have hHpos : (0 : ℤ) < 2 ^ (8 * w - 1) := by positivity
  unfold intToBits bitsToInt
  by_cases hv : 0 ≤ v
  · have hmod : v % (2 : ℤ) ^ (8 * w) = v :=
      Int.emod_eq_of_lt hv (by omega)
    rw [hmod]
    split
    · omega
    · omega
  · push_neg at hv
    have hmod : v % (2 : ℤ) ^ (8 * w) = v + 2 ^ (8 * w) := by
      have h1 : (v + 2 ^ (8 * w) * 1) % (2 : ℤ) ^ (8 * w) = v % 2 ^ (8 * w) :=
        Int.add_mul_emod_self_left v (2 ^ (8 * w)) 1
      have h2 : (v + 2 ^ (8 * w)) % (2 : ℤ) ^ (8 * w) = v + 2 ^ (8 * w) :=
        Int.emod_eq_of_lt (by omega) (by omega)
      rw [mul_one] at h1
      omega
    rw [hmod]
    split
    · omega
    · omega

/-- C7: for every byte-order variant and byte width, appending a value with
the fixed-width encoder and then decoding the appended fixed-length byte
group with the matching byte-order decoder reproduces the original value
exactly — for every unsigned bit pattern below `2 ^ (8 w)` (hence including
`0` and the maximum) and every signed value in
`[-2 ^ (8 w - 1), 2 ^ (8 w - 1))` (hence including the minimum, `0` and the
maximum) read back through the two's-complement decoding. -/
theorem numRoundtrip (e : Endian) (w : Nat) (bits : Nat)
    (hbits : bits < 2 ^ (8 * w)) (v : Int) (hw : 0 < w)
    (hlo : -(2 ^ (8 * w - 1)) ≤ v) (hhi : v < 2 ^ (8 * w - 1)) :
    Endian.decBytes e (Endian.encBytes e w bits) = bits ∧
    (∀ l : List Nat,
      Endian.decBytes e (((Vec.numEncode e w l bits).2).drop l.length) = bits) ∧
    bitsToInt w (Endian.decBytes e (Endian.encBytes e w (intToBits w v))) = v ∧
    (∀ l : List Nat,
      bitsToInt w
        (Endian.decBytes e
          (((Vec.numEncode e w l (intToBits w v)).2).drop l.length)) = v) := by
  have hpow : (256 : ℕ) ^ w = 2 ^ (8 * w) := by
    rw [show (256 : ℕ) = 2 ^ 8 by norm_num, ← pow_mul]
  have hdrop : ∀ (l : List Nat) (m : Nat),
      ((Vec.numEncode e w l m).2).drop l.length = Endian.encBytes e w m := by
    intro l m
    show (l ++ Endian.encBytes e w m).drop l.length = Endian.encBytes e w m
    exact List.drop_left l _
  have hu : Endian.decBytes e (Endian.encBytes e w bits) = bits := by
    rw [decBytes_encBytes, hpow, Nat.mod_eq_of_lt hbits]
  have hs : bitsToInt w (Endian.decBytes e (Endian.encBytes e w (intToBits w v)))
      = v := by
    rw [decBytes_encBytes, hpow, Nat.mod_eq_of_lt (intToBits_lt w v)]
    exact bitsToInt_intToBits w hw v hlo hhi
  exact ⟨hu, fun l => by rw [hdrop l bits]; exact hu,
    hs, fun l => by rw [hdrop l (intToBits w v)]; exact hs⟩

/-! ## Soundness and completeness of the modelled UTF-8 validator -/

theorem step2_spec (b0 : Nat) (rest : List Nat) (c : Nat) (rest2 : List Nat)
    (hb0 : 0xC2 ≤ b0 ∧ b0 ≤ 0xDF) (h : step2 b0 rest = some (c, rest2)) :
    b0 :: rest = scalarEncode c ++ rest2 ∧ IsScalar c := by
  match rest with
  | [] => simp [step2] at h
  | b1 :: rest1 =>
    rw [step2] at h
    by_cases hcont : isCont b1 = true
    · rw [if_pos hcont] at h
      simp only [isCont, Bool.and_eq_true, decide_eq_true_eq] at hcont
      simp only [Option.some.injEq, Prod.mk.injEq] at h
      obtain ⟨hc, hr⟩ := h
      subst hc hr
      constructor
      · simp only [scalarEncode]
        rw [if_neg (by omega), if_pos (by omega)]
        have e1 : 0xC0 + ((b0 - 0xC0) * 64 + (b1 - 0x80)) / 64 = b0 := by omega
        have e2 : 0x80 + ((b0 - 0xC0) * 64 + (b1 - 0x80)) % 64 = b1 := by omega
        rw [e1, e2]
        rfl
      · exact Or.inl (by omega)
    · rw [if_neg hcont] at h
      simp at h

theorem step3_spec (b0 : Nat) (rest : List Nat) (c : Nat) (rest2 : List Nat)
    (hb0 : 0xE0 ≤ b0 ∧ b0 ≤ 0xEF) (h : step3 b0 rest = some (c, rest2)) :
    b0 :: rest = scalarEncode c ++ rest2 ∧ IsScalar c := by
  match rest with
  | [] => simp [step3] at h
  | [b1] => simp [step3] at h
  | b1 :: b2 :: rest3 =>
    rw [step3] at h
    by_cases hguard : ((if b0 = 0xE0 then 0xA0 ≤ b1 && b1 ≤ 0xBF
        else if b0 = 0xED then 0x80 ≤ b1 && b1 ≤ 0x9F
        else isCont b1) && isCont b2) = true
    · rw [if_pos hguard] at h
      simp only [Option.some.injEq, Prod.mk.injEq] at h
      obtain ⟨hc, hr⟩ := h
      subst hc hr
      simp only [Bool.and_eq_true] at hguard
      obtain ⟨hinner, hcont2⟩ := hguard
      simp only [isCont, Bool.and_eq_true, decide_eq_true_eq] at hcont2
      have hb1 : 0x80 ≤ b1 ∧ b1 ≤ 0xBF ∧ (b0 = 0xE0 → 0xA0 ≤ b1) ∧
          (b0 = 0xED → b1 ≤ 0x9F) := by
        by_cases hE : b0 = 0xE0
        · rw [if_pos hE] at hinner
          simp only [Bool.and_eq_true, decide_eq_true_eq] at hinner
          exact ⟨by omega, hinner.2, fun _ => hinner.1,
            fun hD => by rw [hE] at hD; simp at hD⟩
        · rw [if_neg hE] at hinner
          by_cases hD : b0 = 0xED
          · rw [if_pos hD] at hinner
            simp only [Bool.and_eq_true, decide_eq_true_eq] at hinner
            exact ⟨hinner.1, by omega, fun hE2 => absurd hE2 hE,
              fun _ => hinner.2⟩
          · rw [if_neg hD] at hinner
            simp only [isCont, Bool.and_eq_true, decide_eq_true_eq] at hinner
            exact ⟨hinner.1, hinner.2, fun hE2 => absurd hE2 hE,
              fun hD2 => absurd hD2 hD⟩
      obtain ⟨hb1lo, hb1hi, hbE0, hbED⟩ := hb1
      constructor
      · simp only [scalarEncode]
        have hge : ¬((b0 - 0xE0) * 4096 + (b1 - 0x80) * 64 + (b2 - 0x80)
            < 0x800) := by
          by_cases hE : b0 = 0xE0
          · have := hbE0 hE; omega
          · omega
        rw [if_neg (by omega), if_neg hge, if_pos (by omega)]
        have e1 : 0xE0 + ((b0 - 0xE0) * 4096 + (b1 - 0x80) * 64
            + (b2 - 0x80)) / 4096 = b0 := by omega
        have e2 : 0x80 + ((b0 - 0xE0) * 4096 + (b1 - 0x80) * 64
            + (b2 - 0x80)) / 64 % 64 = b1 := by omega
        have e3 : 0x80 + ((b0 - 0xE0) * 4096 + (b1 - 0x80) * 64
            + (b2 - 0x80)) % 64 = b2 := by omega
        rw [e1, e2, e3]
        rfl
      · unfold IsScalar
        by_cases hE : b0 = 0xE0
        · exact Or.inl (by have := hbE0 hE; omega)
        · by_cases hD : b0 = 0xED
          · exact Or.inl (by have := hbED hD; omega)
          · by_cases hlow : b0 ≤ 0xEC
            · exact Or.inl (by omega)
            · exact Or.inr (by omega)
    · rw [if_neg hguard] at h
      simp at h

theorem step4_spec (b0 : Nat) (rest : List Nat) (c : Nat) (rest2 : List Nat)
    (hb0 : 0xF0 ≤ b0 ∧ b0 ≤ 0xF4) (h : step4 b0 rest = some (c, rest2)) :
    b0 :: rest = scalarEncode c ++ rest2 ∧ IsScalar c := by
  match rest with
  | [] => simp [step4] at h
  | [b1] => simp [step4] at h
  | [b1, b2] => simp [step4] at h
  | b1 :: b2 :: b3 :: rest4 =>
    rw [step4] at h
    by_cases hguard : ((if b0 = 0xF0 then 0x90 ≤ b1 && b1 ≤ 0xBF
        else if b0 = 0xF4 then 0x80 ≤ b1 && b1 ≤ 0x8F
        else isCont b1) && isCont b2 && isCont b3) = true
    · rw [if_pos hguard] at h
      simp only [Option.some.injEq, Prod.mk.injEq] at h
      obtain ⟨hc, hr⟩ := h
      subst hc hr
      simp only [Bool.and_eq_true] at hguard
      obtain ⟨⟨hinner, hcont2⟩, hcont3⟩ := hguard
      simp only [isCont, Bool.and_eq_true, decide_eq_true_eq] at hcont2 hcont3
      have hb1 : 0x80 ≤ b1 ∧ b1 ≤ 0xBF ∧ (b0 = 0xF0 → 0x90 ≤ b1) ∧
          (b0 = 0xF4 → b1 ≤ 0x8F) := by
        by_cases hF0 : b0 = 0xF0
        · rw [if_pos hF0] at hinner
          simp only [Bool.and_eq_true, decide_eq_true_eq] at hinner
          exact ⟨by omega, hinner.2, fun _ => hinner.1,
            fun hF4 => by rw [hF0] at hF4; simp at hF4⟩
        · rw [if_neg hF0] at hinner
          by_cases hF4 : b0 = 0xF4
          · rw [if_pos hF4] at hinner
            simp only [Bool.and_eq_true, decide_eq_true_eq] at hinner
            exact ⟨hinner.1, by omega, fun hF0b => absurd hF0b hF0,
              fun _ => hinner.2⟩
          · rw [if_neg hF4] at hinner
            simp only [isCont, Bool.and_eq_true, decide_eq_true_eq] at hinner
            exact ⟨hinner.1, hinner.2, fun hF0b => absurd hF0b hF0,
              fun hF4b => absurd hF4b hF4⟩
      obtain ⟨hb1lo, hb1hi, hbF0, hbF4⟩ := hb1
      have hge : ¬((b0 - 0xF0) * 262144 + (b1 - 0x80) * 4096 + (b2 - 0x80) * 64
          + (b3 - 0x80) < 0x10000) := by
        by_cases hF0 : b0 = 0xF0
        · have := hbF0 hF0; omega
        · omega
      constructor
      · simp only [scalarEncode]
        rw [if_neg (by omega), if_neg (by omega), if_neg hge]
        have e1 : 0xF0 + ((b0 - 0xF0) * 262144 + (b1 - 0x80) * 4096
            + (b2 - 0x80) * 64 + (b3 - 0x80)) / 262144 = b0 := by omega
        have e2 : 0x80 + ((b0 - 0xF0) * 262144 + (b1 - 0x80) * 4096
            + (b2 - 0x80) * 64 + (b3 - 0x80)) / 4096 % 64 = b1 := by omega
        have e3 : 0x80 + ((b0 - 0xF0) * 262144 + (b1 - 0x80) * 4096
            + (b2 - 0x80) * 64 + (b3 - 0x80)) / 64 % 64 = b2 := by omega
        have e4 : 0x80 + ((b0 - 0xF0) * 262144 + (b1 - 0x80) * 4096
            + (b2 - 0x80) * 64 + (b3 - 0x80)) % 64 = b3 := by omega
        rw [e1, e2, e3, e4]
        rfl
      · unfold IsScalar
        refine Or.inr ⟨by omega, ?_⟩
        by_cases hF4 : b0 = 0xF4
        · have := hbF4 hF4; omega
        · omega
    · rw [if_neg hguard] at h
      simp at h

theorem utf8Step_spec (b0 : Nat) (rest : List Nat) (c : Nat) (rest2 : List Nat)
    (h : utf8Step b0 rest = some (c, rest2)) :
    b0 :: rest = scalarEncode c ++ rest2 ∧ IsScalar c := by
  unfold utf8Step at h
  by_cases h1 : b0 < 0x80
  · rw [if_pos h1] at h
    simp only [Option.some.injEq, Prod.mk.injEq] at h
    obtain ⟨hc, hr⟩ := h
    subst hc hr
    exact ⟨by simp [scalarEncode, if_pos h1], Or.inl (by omega)⟩
  · rw [if_neg h1] at h
    by_cases h2 : (0xC2 ≤ b0 && b0 ≤ 0xDF) = true
    · rw [if_pos h2] at h
      simp only [Bool.and_eq_true, decide_eq_true_eq] at h2
      exact step2_spec b0 rest c rest2 h2 h
    · rw [if_neg h2] at h
      by_cases h3 : (0xE0 ≤ b0 && b0 ≤ 0xEF) = true
      · rw [if_pos h3] at h
        simp only [Bool.and_eq_true, decide_eq_true_eq] at h3
        exact step3_spec b0 rest c rest2 h3 h
      · rw [if_neg h3] at h
        by_cases h4 : (0xF0 ≤ b0 && b0 ≤ 0xF4) = true
        · rw [if_pos h4] at h
          simp only [Bool.and_eq_true, decide_eq_true_eq] at h4
          exact step4_spec b0 rest c rest2 h4 h
        · rw [if_neg h4] at h
          simp at h

theorem utf8DecodeGo_sound :
    ∀ (fuel : Nat) (b : List Nat) (cs : List Nat),
      utf8DecodeGo fuel b = some cs → WfUtf8 b := by
  intro fuel
  induction fuel with
  | zero =>
    intro b cs h
    match b with
    | [] => exact WfUtf8.nil
    | b0 :: rest => simp [utf8DecodeGo] at h
  | succ fuel ih =>
    intro b cs h
    match b with
    | [] => exact WfUtf8.nil
    | b0 :: rest =>
      rw [utf8DecodeGo] at h
      cases hstep : utf8Step b0 rest with
      | none => rw [hstep] at h; simp at h
      | some pr =>
        obtain ⟨c, rest2⟩ := pr
        rw [hstep] at h
        obtain ⟨cs1, hcs1, -⟩ := Option.map_eq_some'.mp h
        obtain ⟨henc, hsc⟩ := utf8Step_spec b0 rest c rest2 hstep
        rw [henc]
        exact WfUtf8.cons _ _ hsc (ih rest2 cs1 hcs1)

theorem scalarEncode_length_pos (c : Nat) : 1 ≤ (scalarEncode c).length := by
  unfold scalarEncode
  split
  · simp
  · split
    · simp
    · split <;> simp

theorem utf8Step_of_scalar (c : Nat) (hc : IsScalar c) (bs : List Nat) :
    ∃ b0 t, scalarEncode c ++ bs = b0 :: t ∧ utf8Step b0 t = some (c, bs) := by
  unfold IsScalar at hc
  by_cases h1 : c < 0x80
  · refine ⟨c, bs, by simp [scalarEncode, if_pos h1], ?_⟩
    unfold utf8Step
    rw [if_pos h1]
  · by_cases h2 : c < 0x800
    · refine ⟨0xC0 + c / 64, (0x80 + c % 64) :: bs,
        by simp [scalarEncode, if_neg h1, if_pos h2], ?_⟩
      unfold utf8Step
      rw [if_neg (by omega),
        if_pos (show (0xC2 ≤ 0xC0 + c / 64 && 0xC0 + c / 64 ≤ 0xDF) = true by
          simp only [Bool.and_eq_true, decide_eq_true_eq]; omega)]
      rw [step2, if_pos (show isCont (0x80 + c % 64) = true by
        simp only [isCont, Bool.and_eq_true, decide_eq_true_eq]; omega)]
      have : (0xC0 + c / 64 - 0xC0) * 64 + (0x80 + c % 64 - 0x80) = c := by
        omega
      rw [this]
    · by_cases h3 : c < 0x10000
      · refine ⟨0xE0 + c / 4096, (0x80 + c / 64 % 64) :: (0x80 + c % 64) :: bs,
          by simp [scalarEncode, if_neg h1, if_neg h2, if_pos h3], ?_⟩
        unfold utf8Step
        rw [if_neg (by omega),
          if_neg (show ¬(0xC2 ≤ 0xE0 + c / 4096 && 0xE0 + c / 4096 ≤ 0xDF)
              = true by
            simp only [Bool.and_eq_true, decide_eq_true_eq, not_and_or,
              not_le]; omega),
          if_pos (show (0xE0 ≤ 0xE0 + c / 4096 && 0xE0 + c / 4096 ≤ 0xEF)
              = true by
            simp only [Bool.and_eq_true, decide_eq_true_eq]; omega)]
        rw [step3]
        have hguard : ((if 0xE0 + c / 4096 = 0xE0
            then 0xA0 ≤ 0x80 + c / 64 % 64 && 0x80 + c / 64 % 64 ≤ 0xBF
            else if 0xE0 + c / 4096 = 0xED
            then 0x80 ≤ 0x80 + c / 64 % 64 && 0x80 + c / 64 % 64 ≤ 0x9F
            else isCont (0x80 + c / 64 % 64))
            && isCont (0x80 + c % 64)) = true := by
          have hb2 : isCont (0x80 + c % 64) = true := by
            simp only [isCont, Bool.and_eq_true, decide_eq_true_eq]; omega
          rw [hb2, Bool.and_true]
          by_cases hE : 0xE0 + c / 4096 = 0xE0
          · rw [if_pos hE]
            simp only [Bool.and_eq_true, decide_eq_true_eq]
            omega
          · rw [if_neg hE]
            by_cases hD : 0xE0 + c / 4096 = 0xED
            · rw [if_pos hD]
              simp only [Bool.and_eq_true, decide_eq_true_eq]
              omega
            · rw [if_neg hD]
              simp only [isCont, Bool.and_eq_true, decide_eq_true_eq]
              omega
        rw [if_pos hguard]
        have : (0xE0 + c / 4096 - 0xE0) * 4096 + (0x80 + c / 64 % 64 - 0x80) * 64
            + (0x80 + c % 64 - 0x80) = c := by omega
        rw [this]
      · have h4 : c < 0x110000 := by omega
        refine ⟨0xF0 + c / 262144,
          (0x80 + c / 4096 % 64) :: (0x80 + c / 64 % 64) :: (0x80 + c % 64) :: bs,
          by simp [scalarEncode, if_neg h1, if_neg h2, if_neg h3], ?_⟩
        unfold utf8Step
        rw [if_neg (by omega),
          if_neg (show ¬(0xC2 ≤ 0xF0 + c / 262144 && 0xF0 + c / 262144 ≤ 0xDF)
              = true by
            simp only [Bool.and_eq_true, decide_eq_true_eq, not_and_or,
              not_le]; omega),
          if_neg (show ¬(0xE0 ≤ 0xF0 + c / 262144 && 0xF0 + c / 262144 ≤ 0xEF)
              = true by
            simp only [Bool.and_eq_true, decide_eq_true_eq, not_and_or,
              not_le]; omega),
          if_pos (show (0xF0 ≤ 0xF0 + c / 262144 && 0xF0 + c / 262144 ≤ 0xF4)
              = true by
            simp only [Bool.and_eq_true, decide_eq_true_eq]; omega)]
        rw [step4]
        have hguard : ((if 0xF0 + c / 262144 = 0xF0
            then 0x90 ≤ 0x80 + c / 4096 % 64 && 0x80 + c / 4096 % 64 ≤ 0xBF
            else if 0xF0 + c / 262144 = 0xF4
            then 0x80 ≤ 0x80 + c / 4096 % 64 && 0x80 + c / 4096 % 64 ≤ 0x8F
            else isCont (0x80 + c / 4096 % 64))
            && isCont (0x80 + c / 64 % 64) && isCont (0x80 + c % 64)) = true := by
          have hb2 : isCont (0x80 + c / 64 % 64) = true := by
            simp only [isCont, Bool.and_eq_true, decide_eq_true_eq]; omega
          have hb3 : isCont (0x80 + c % 64) = true := by
            simp only [isCont, Bool.and_eq_true, decide_eq_true_eq]; omega
          rw [hb2, hb3, Bool.and_true, Bool.and_true]
          by_cases hF0 : 0xF0 + c / 262144 = 0xF0
          · rw [if_pos hF0]
            simp only [Bool.and_eq_true, decide_eq_true_eq]
            omega
          · rw [if_neg hF0]
            by_cases hF4 : 0xF0 + c / 262144 = 0xF4
            · rw [if_pos hF4]
              simp only [Bool.and_eq_true, decide_eq_true_eq]
              omega
            · rw [if_neg hF4]
              simp only [isCont, Bool.and_eq_true, decide_eq_true_eq]
              omega
        rw [if_pos hguard]
        have : (0xF0 + c / 262144 - 0xF0) * 262144
            + (0x80 + c / 4096 % 64 - 0x80) * 4096
            + (0x80 + c / 64 % 64 - 0x80) * 64 + (0x80 + c % 64 - 0x80) = c := by
          omega
        rw [this]

theorem utf8DecodeGo_complete (b : List Nat) (hwf : WfUtf8 b) :
    ∀ (fuel : Nat), b.length ≤ fuel → (utf8DecodeGo fuel b).isSome = true := by
  induction hwf with
  | nil =>
    intro fuel hf
    cases fuel <;> simp [utf8DecodeGo]
  | cons c bs hc hbs ih =>
    intro fuel hf
    obtain ⟨b0, t, henc, hstep⟩ := utf8Step_of_scalar c hc bs
    rw [henc] at hf ⊢
    match fuel with
    | 0 => simp at hf
    | fuel + 1 =>
      rw [utf8DecodeGo, hstep]
      have hlen : bs.length ≤ fuel := by
        have h1 : (scalarEncode c ++ bs).length = t.length + 1 := by
          rw [henc]; simp
        have h2 := scalarEncode_length_pos c
        simp only [List.length_append] at h1
        simp only [List.length_cons] at hf
        omega
      obtain ⟨cs, hcs⟩ := Option.isSome_iff_exists.mp (ih fuel hlen)
      simp [hcs]

/-- C9: for every byte sequence `b` and every text-store state,
`StringBarfExt::bytes` succeeds and appends the decoded text if and only if
`b` is well-formed UTF-8 (a concatenation of encodings of Unicode scalar
values); when `b` is not well-formed UTF-8 it returns a UTF-8 validation
error — a type distinct from any buffer capability `Error` — and the target
store's contents are unchanged. -/
theorem stringBytes_spec (s b : List Nat) :
    ((stringBytes s b).1 = .ok () ↔ WfUtf8 b) ∧
    (¬ WfUtf8 b → stringBytes s b = (.error .invalid, s)) ∧
    (∀ cs, utf8Decode b = some cs → stringBytes s b = (.ok (), s ++ cs)) := by
  refine ⟨⟨?_, ?_⟩, ?_, ?_⟩
  · intro hok
    unfold stringBytes at hok
    cases hdec : utf8Decode b with
    | some cs => exact utf8DecodeGo_sound b.length b cs hdec
    | none => rw [hdec] at hok; simp at hok
  · intro hwf
    obtain ⟨cs, hcs⟩ :=
      Option.isSome_iff_exists.mp (utf8DecodeGo_complete b hwf b.length le_rfl)
    unfold stringBytes
    rw [show utf8Decode b = some cs from hcs]
  · intro hnwf
    cases hdec : utf8Decode b with
    | some cs => exact absurd (utf8DecodeGo_sound b.length b cs hdec) hnwf
    | none => unfold stringBytes; rw [hdec]
  · intro cs hcs
    unfold stringBytes
    rw [hcs]

/-- Witness for C9: the bytes of "té" decode and append; the lone byte 0xFF
is rejected leaving the store unchanged. -/
theorem stringBytes_spec_witness :
    stringBytes [] [0x74, 0xC3, 0xA9] = (.ok (), [0x74, 0xE9]) ∧
    stringBytes [0x61] [0xFF] = (.error .invalid, [0x61]) :=
  ⟨(stringBytes_spec [] [0x74, 0xC3, 0xA9]).2.2 [0x74, 0xE9] rfl,
   (stringBytes_spec [0x61] [0xFF]).2.1 (fun hwf => by
    obtain ⟨cs, hcs⟩ := Option.isSome_iff_exists.mp
      (utf8DecodeGo_complete [0xFF] hwf 1 (by simp))
    rw [show utf8DecodeGo 1 [0xFF] = none from rfl] at hcs
    exact Option.noConfusion hcs)⟩

/-- Witness for C7: an 8-bit little-endian round trip at the unsigned
maximum 255 and at the signed minimum -128. -/
theorem numRoundtrip_witness :
    Endian.decBytes .le (Endian.encBytes .le 1 255) = 255 ∧
    bitsToInt 1 (Endian.decBytes .le (Endian.encBytes .le 1 (intToBits 1 (-128))))
      = -128 :=
  ⟨(numRoundtrip .le 1 255 (by decide) (-128) (by decide) (by decide)
      (by decide)).1,
   (numRoundtrip .le 1 255 (by decide) (-128) (by decide) (by decide)
      (by decide)).2.2.1⟩

/-- Witness for C10: the full 1-slot buffer accepts every empty append
unchanged. -/
theorem StackBuffer.empty_append_spec_witness :
    (⟨[some 3], 1⟩ : StackBuffer Nat 1).extend [] = (.ok (), ⟨[some 3], 1⟩) ∧
    (⟨[some 3], 1⟩ : StackBuffer Nat 1).slice [] = (.ok (), ⟨[some 3], 1⟩) :=
  ⟨(StackBuffer.empty_append_spec (⟨[some 3], 1⟩ : StackBuffer Nat 1)
      (by decide)).1,
   (StackBuffer.empty_append_spec (⟨[some 3], 1⟩ : StackBuffer Nat 1)
      (by decide)).2.2.2⟩

end Barf
